import Mathlib

/-!
Shallow embedding of the URL-shortener service in `src/task.rs` (an
event-sourced CQRS service), together with proofs of the specification
claims about it.

Modelling conventions:
* Rust `String` is modelled as `List Char`; `PartialEq` on the newtypes
  `Slug`/`Url` is exact equality of the character lists, as in the source.
* `u64` redirect counters are modelled as `Nat` (a counter only ever grows
  by 1 per appended event, so no overflow behaviour is reachable in any
  log a machine could store).
* The random slug produced by `thread_rng().sample_iter(&Alphanumeric)`
  inside `handle_create_short_link` is modelled as an explicit oracle
  argument `gen : Slug`: the source draws exactly one candidate per call,
  and `gen` is that candidate.
* `&mut self` methods become functions `UrlShortenerService → ... →
  result × UrlShortenerService`; `Result<T, ShortenerError>` becomes
  `Except ShortenerError T`.
-/

namespace UrlShortener

/-- Rust newtype `Slug(pub String)`; equality is exact string equality. -/
abbrev Slug := List Char

/-- Rust newtype `Url(pub String)`; equality is exact string equality. -/
abbrev Url := List Char

/-- Event-sourcing event enumerate (enum `Event` in the source). -/
inductive Event where
  | linkCreated (slug : Slug) (url : Url)
  | linkAccessed (slug : Slug)
  | urlChanged (slug : Slug) (new_url : Url)
deriving DecidableEq

/-- Enum `ShortenerError` in the source. -/
inductive ShortenerError where
  | invalidUrl
  | slugAlreadyInUse
  | slugNotFound
deriving DecidableEq

/-- Struct `ShortLink { slug, url }` in the source. -/
structure ShortLink where
  slug : Slug
  url : Url
deriving DecidableEq

/-- Struct `Stats { link, redirects }` in the source. -/
structure Stats where
  link : ShortLink
  redirects : Nat
deriving DecidableEq

/-- Struct `UrlShortenerService { events: Vec<Event> }` in the source. -/
structure UrlShortenerService where
  events : List Event
deriving DecidableEq

/-- `UrlShortenerService::new`. -/
def UrlShortenerService.new : UrlShortenerService := ⟨[]⟩

/-- `UrlShortenerService::record_event`: `self.events.push(event)`. -/
def record_event (svc : UrlShortenerService) (e : Event) : UrlShortenerService :=
  ⟨svc.events ++ [e]⟩

/-- Model of `iter_mut().find(p)` followed by a mutation `f` of the found
element: update the first element satisfying `p`, leave the list unchanged
when none does. -/
def updateFirst (p : α → Bool) (f : α → α) : List α → List α
  | [] => []
  | x :: xs => if p x then f x :: xs else x :: updateFirst p f xs

/-- First loop of `UrlShortenerService::replay`: one `ShortLink` is pushed
per `LinkCreated` event, in log order. -/
def createdLinks (events : List Event) : List ShortLink :=
  events.filterMap fun e =>
    match e with
    | .linkCreated slug url => some (ShortLink.mk slug url)
    | _ => none

/-- Body of the second loop of `replay`: a `LinkAccessed` event increments
`redirects` of the first matching `Stats`, other events do nothing. -/
def accessStep (stats : List Stats) (e : Event) : List Stats :=
  match e with
  | .linkAccessed slug =>
      updateFirst (fun st => st.link.slug == slug)
        (fun st => Stats.mk st.link (st.redirects + 1)) stats
  | _ => stats

/-- Body of the third loop of `replay`: a `UrlChanged` event overwrites the
url of the first matching `ShortLink`, other events do nothing. -/
def changeStep (links : List ShortLink) (e : Event) : List ShortLink :=
  match e with
  | .urlChanged slug new_url =>
      updateFirst (fun l => l.slug == slug)
        (fun l => ShortLink.mk l.slug new_url) links
  | _ => links

/-- The `links` component returned by `UrlShortenerService::replay`: the
`LinkCreated` pass followed by the `UrlChanged` pass. -/
def linksOf (events : List Event) : List ShortLink :=
  events.foldl changeStep (createdLinks events)

/-- The `stats` component returned by `UrlShortenerService::replay`: the
`LinkCreated` pass (each entry starting at `redirects = 0`) followed by the
`LinkAccessed` pass. Note the third (`UrlChanged`) loop of the source never
touches this vector. -/
def statsOf (events : List Event) : List Stats :=
  events.foldl accessStep ((createdLinks events).map fun l => Stats.mk l 0)

/-- `UrlShortenerService::replay`. -/
def replay (svc : UrlShortenerService) : List ShortLink × List Stats :=
  (linksOf svc.events, statsOf svc.events)

/-- The string literal `"http"` from `url.0.starts_with("http")`. -/
def httpScheme : List Char := ['h', 't', 't', 'p']

/-- `CommandHandler::handle_create_short_link` for `UrlShortenerService`.
The `gen` argument is the single random candidate drawn by
`thread_rng()` when `slug` is `None` (see module docstring). -/
def handle_create_short_link (svc : UrlShortenerService) (url : Url)
    (slug : Option Slug) (gen : Slug) :
    Except ShortenerError ShortLink × UrlShortenerService :=
  if !httpScheme.isPrefixOf url || url.isEmpty then
    (.error .invalidUrl, svc)
  else
    let slug := slug.getD gen
    if (replay svc).1.any (fun link => link.slug == slug) then
      (.error .slugAlreadyInUse, svc)
    else
      (.ok (ShortLink.mk slug url), record_event svc (.linkCreated slug url))

/-- `CommandHandler::handle_redirect` for `UrlShortenerService`. -/
def handle_redirect (svc : UrlShortenerService) (slug : Slug) :
    Except ShortenerError ShortLink × UrlShortenerService :=
  match (replay svc).1.find? (fun link => link.slug == slug) with
  | none => (.error .slugNotFound, svc)
  | some link => (.ok link, record_event svc (.linkAccessed slug))

/-- `CommandHandler::handle_change_short_link` for `UrlShortenerService`. -/
def handle_change_short_link (svc : UrlShortenerService) (slug : Slug)
    (new_url : Url) : Except ShortenerError ShortLink × UrlShortenerService :=
  match (replay svc).1.find? (fun link => link.slug == slug) with
  | none => (.error .slugNotFound, svc)
  | some link =>
      (.ok (ShortLink.mk link.slug new_url),
        record_event svc (.urlChanged slug new_url))

/-- `QueryHandler::get_stats` for `UrlShortenerService` (takes `&self`:
no state change). -/
def get_stats (svc : UrlShortenerService) (slug : Slug) :
    Except ShortenerError Stats :=
  match (replay svc).2.find? (fun st => st.link.slug == slug) with
  | none => .error .slugNotFound
  | some st => .ok st

/-- One invocation of the command API; for `create`, `gen` is the random
candidate the generator would supply on that call. -/
inductive Command where
  | create (url : Url) (slug : Option Slug) (gen : Slug)
  | redirect (slug : Slug)
  | change (slug : Slug) (new_url : Url)
deriving DecidableEq

/-- Run one command, returning its result and the successor state. -/
def runCommand (svc : UrlShortenerService) :
    Command → Except ShortenerError ShortLink × UrlShortenerService
  | .create url slug gen => handle_create_short_link svc url slug gen
  | .redirect slug => handle_redirect svc slug
  | .change slug new_url => handle_change_short_link svc slug new_url

/-- State transition of one command. -/
def applyCommand (svc : UrlShortenerService) (c : Command) :
    UrlShortenerService :=
  (runCommand svc c).2

/-- Execute a command sequence from a fresh service. -/
def execCommands (cmds : List Command) : UrlShortenerService :=
  cmds.foldl applyCommand UrlShortenerService.new

/-- States reachable through the command API from `UrlShortenerService::new`. -/
def Reachable (svc : UrlShortenerService) : Prop :=
  ∃ cmds : List Command, execCommands cmds = svc

/-- Slugs of the `LinkCreated` events of a log, in log order. -/
def createdSlugs (events : List Event) : List Slug :=
  events.filterMap fun e =>
    match e with
    | .linkCreated slug _ => some slug
    | _ => none

/-- Url of the first `LinkCreated` event for `slug`, if any. -/
def firstCreate : List Event → Slug → Option Url
  | [], _ => none
  | .linkCreated s u :: rest, slug =>
      if s = slug then some u else firstCreate rest slug
  | _ :: rest, slug => firstCreate rest slug

/-- New url of the last `UrlChanged` event for `slug`, if any. -/
def lastChange : List Event → Slug → Option Url
  | [], _ => none
  | e :: rest, slug =>
      match lastChange rest slug with
      | some u => some u
      | none =>
          match e with
          | .urlChanged s u => if s = slug then some u else none
          | _ => none

/-- Whether an event is a `LinkAccessed` for `slug`. -/
def isAccess (slug : Slug) : Event → Bool
  | .linkAccessed s => s == slug
  | _ => false

/-- Number of `LinkAccessed` events for `slug` in a log. -/
def numAccesses (events : List Event) (slug : Slug) : Nat :=
  events.countP (isAccess slug)

/-- Redirect count for `slug` as observable through `get_stats`
(`none` when `get_stats` fails). -/
def redirectsSeen (svc : UrlShortenerService) (slug : Slug) : Option Nat :=
  match get_stats svc slug with
  | .ok st => some st.redirects
  | .error _ => none

/-! Basic lemmas about `updateFirst`. -/

theorem map_updateFirst (p : α → Bool) (f : α → α) (g : α → β)
    (hf : ∀ x, g (f x) = g x) :
    ∀ l : List α, (updateFirst p f l).map g = l.map g
  | [] => rfl
  | x :: xs => by
    simp only [updateFirst]
    split
    · simp [hf]
    · simp [map_updateFirst p f g hf xs]

theorem find?_updateFirst_self (p : α → Bool) (f : α → α)
    (hf : ∀ x, p (f x) = p x) :
    ∀ l : List α, (updateFirst p f l).find? p = (l.find? p).map f
  | [] => rfl
  | x :: xs => by
    simp only [updateFirst]
    by_cases hx : p x
    · rw [if_pos hx, List.find?_cons_of_pos _ (by rw [hf, hx]),
        List.find?_cons_of_pos _ hx]
      rfl
    · rw [if_neg (by simp [hx]), List.find?_cons_of_neg _ (by simp [hx]),
        List.find?_cons_of_neg _ (by simp [hx]),
        find?_updateFirst_self p f hf xs]

theorem find?_updateFirst_other (p q : α → Bool) (f : α → α)
    (hq : ∀ x, q (f x) = q x) (hpq : ∀ x, p x = true → q x = false) :
    ∀ l : List α, (updateFirst p f l).find? q = l.find? q
  | [] => rfl
  | x :: xs => by
    simp only [updateFirst]
    by_cases hx : p x
    · have hqx : q x = false := hpq x hx
      rw [if_pos hx, List.find?_cons_of_neg _ (by simp [hq, hqx]),
        List.find?_cons_of_neg _ (by simp [hqx])]
    · by_cases hqx : q x
      · rw [if_neg (by simp [hx]), List.find?_cons_of_pos _ hqx,
          List.find?_cons_of_pos _ hqx]
      · rw [if_neg (by simp [hx]), List.find?_cons_of_neg _ (by simp [hqx]),
          List.find?_cons_of_neg _ (by simp [hqx]),
          find?_updateFirst_other p q f hq hpq xs]

theorem updateFirst_append_single (p : α → Bool) (f : α → α) (x : α)
    (hx : p x = false) :
    ∀ l : List α, updateFirst p f (l ++ [x]) = updateFirst p f l ++ [x]
  | [] => by simp [updateFirst, hx]
  | y :: ys => by
    simp only [List.cons_append, updateFirst]
    by_cases hy : p y
    · simp [hy]
    · simp [hy, updateFirst_append_single p f x hx ys]

theorem find?_map (f : α → β) (p : β → Bool) :
    ∀ l : List α, (l.map f).find? p = (l.find? fun x => p (f x)).map f
  | [] => rfl
  | x :: xs => by
    simp only [List.map_cons, List.find?_cons]
    cases h : p (f x) <;> simp [h, find?_map f p xs]

/-! Replay preserves the keys laid down by the `LinkCreated` pass. -/

theorem createdLinks_map_slug :
    ∀ events : List Event, (createdLinks events).map ShortLink.slug = createdSlugs events
  | [] => rfl
  | e :: rest => by
    cases e <;>
      simp [createdLinks, createdSlugs, List.filterMap_cons] <;>
      simpa [createdLinks, createdSlugs] using createdLinks_map_slug rest

theorem changeStep_map_slug (links : List ShortLink) (e : Event) :
    (changeStep links e).map ShortLink.slug = links.map ShortLink.slug := by
  cases e with
  | urlChanged s u =>
    simp only [changeStep]
    exact map_updateFirst (fun l => l.slug == s) (fun l => ShortLink.mk l.slug u)
      ShortLink.slug (fun x => rfl) links
  | linkCreated s u => rfl
  | linkAccessed s => rfl

theorem accessStep_map_link (stats : List Stats) (e : Event) :
    (accessStep stats e).map Stats.link = stats.map Stats.link := by
  cases e with
  | linkAccessed s =>
    simp only [accessStep]
    exact map_updateFirst (fun st => st.link.slug == s)
      (fun st => Stats.mk st.link (st.redirects + 1)) Stats.link (fun x => rfl) stats
  | linkCreated s u => rfl
  | urlChanged s u => rfl

theorem foldl_changeStep_map_slug :
    ∀ (events : List Event) (links : List ShortLink),
      (events.foldl changeStep links).map ShortLink.slug = links.map ShortLink.slug
  | [], links => rfl
  | e :: rest, links => by
    rw [List.foldl_cons, foldl_changeStep_map_slug rest, changeStep_map_slug]

theorem foldl_accessStep_map_link :
    ∀ (events : List Event) (stats : List Stats),
      (events.foldl accessStep stats).map Stats.link = stats.map Stats.link
  | [], stats => rfl
  | e :: rest, stats => by
    rw [List.foldl_cons, foldl_accessStep_map_link rest, accessStep_map_link]

theorem linksOf_map_slug (events : List Event) :
    (linksOf events).map ShortLink.slug = createdSlugs events := by
  rw [linksOf, foldl_changeStep_map_slug, createdLinks_map_slug]

theorem statsOf_map_link (events : List Event) :
    (statsOf events).map Stats.link = createdLinks events := by
  rw [statsOf, foldl_accessStep_map_link, List.map_map]
  have hid : (Stats.link ∘ fun l : ShortLink => Stats.mk l 0) = id := rfl
  rw [hid, List.map_id]

theorem statsOf_map_slug (events : List Event) :
    (statsOf events).map (fun st => st.link.slug) = createdSlugs events := by
  have h := congrArg (List.map ShortLink.slug) (statsOf_map_link events)
  rw [List.map_map, createdLinks_map_slug] at h
  exact h

/-! Lemmas about `createdSlugs`, `firstCreate` and `lastChange`. -/

theorem createdSlugs_cons_created (s : Slug) (u : Url) (rest : List Event) :
    createdSlugs (Event.linkCreated s u :: rest) = s :: createdSlugs rest := rfl

theorem createdSlugs_cons_accessed (s : Slug) (rest : List Event) :
    createdSlugs (Event.linkAccessed s :: rest) = createdSlugs rest := rfl

theorem createdSlugs_cons_changed (s : Slug) (u : Url) (rest : List Event) :
    createdSlugs (Event.urlChanged s u :: rest) = createdSlugs rest := rfl

theorem lastChange_cons_created (s : Slug) (u : Url) (rest : List Event)
    (slug : Slug) :
    lastChange (Event.linkCreated s u :: rest) slug = lastChange rest slug := by
  cases hlc : lastChange rest slug <;> simp [lastChange, hlc]

theorem lastChange_cons_accessed (s : Slug) (rest : List Event) (slug : Slug) :
    lastChange (Event.linkAccessed s :: rest) slug = lastChange rest slug := by
  cases hlc : lastChange rest slug <;> simp [lastChange, hlc]

theorem lastChange_cons_changed_self (s : Slug) (u : Url) (rest : List Event) :
    lastChange (Event.urlChanged s u :: rest) s
      = some ((lastChange rest s).getD u) := by
  cases hlc : lastChange rest s <;> simp [lastChange, hlc]

theorem lastChange_cons_changed_other (s : Slug) (u : Url) (rest : List Event)
    (slug : Slug) (h : ¬s = slug) :
    lastChange (Event.urlChanged s u :: rest) slug = lastChange rest slug := by
  cases hlc : lastChange rest slug <;> simp [lastChange, hlc, h]

theorem mem_createdSlugs {slug : Slug} {events : List Event} :
    slug ∈ createdSlugs events ↔ ∃ url, Event.linkCreated slug url ∈ events := by
  simp only [createdSlugs, List.mem_filterMap]
  constructor
  · rintro ⟨e, he, hfe⟩
    cases e with
    | linkCreated s u =>
      simp only [Option.some.injEq] at hfe
      subst hfe
      exact ⟨u, he⟩
    | linkAccessed s => simp at hfe
    | urlChanged s u => simp at hfe
  · rintro ⟨url, hmem⟩
    exact ⟨Event.linkCreated slug url, hmem, rfl⟩

theorem firstCreate_eq_none {slug : Slug} :
    ∀ events : List Event, firstCreate events slug = none ↔ slug ∉ createdSlugs events
  | [] => by simp [firstCreate, createdSlugs]
  | e :: rest => by
    cases e with
    | linkCreated s u =>
      rw [createdSlugs_cons_created]
      by_cases h : s = slug
      · subst h
        simp [firstCreate]
      · have h' : slug ≠ s := fun he => h he.symm
        rw [show firstCreate (Event.linkCreated s u :: rest) slug
            = firstCreate rest slug from by simp [firstCreate, h]]
        rw [firstCreate_eq_none rest]
        simp [List.mem_cons, h']
    | linkAccessed s =>
      rw [createdSlugs_cons_accessed]
      exact firstCreate_eq_none rest
    | urlChanged s u =>
      rw [createdSlugs_cons_changed]
      exact firstCreate_eq_none rest

theorem firstCreate_isSome_of_mem {slug : Slug} {events : List Event}
    (h : slug ∈ createdSlugs events) : ∃ u, firstCreate events slug = some u := by
  cases hfc : firstCreate events slug with
  | none => exact absurd h ((firstCreate_eq_none events).mp hfc)
  | some u => exact ⟨u, rfl⟩

theorem createdLinks_find? (slug : Slug) :
    ∀ events : List Event,
      (createdLinks events).find? (fun l => l.slug == slug)
        = (firstCreate events slug).map fun u => ShortLink.mk slug u
  | [] => rfl
  | e :: rest => by
    cases e with
    | linkCreated s u =>
      simp only [createdLinks, List.filterMap_cons]
      by_cases h : s = slug
      · subst h
        simp [List.find?_cons, firstCreate]
      · rw [List.find?_cons_of_neg _ (by simp [h])]
        simp only [firstCreate, if_neg h]
        exact createdLinks_find? slug rest
    | linkAccessed s =>
      simp only [createdLinks, List.filterMap_cons, firstCreate]
      exact createdLinks_find? slug rest
    | urlChanged s u =>
      simp only [createdLinks, List.filterMap_cons, firstCreate]
      exact createdLinks_find? slug rest

/-! Characterization of the `LinkAccessed` pass: the first `Stats` entry
for a slug absorbs exactly the count of that slug's access events, and the
`find?` used by `get_stats` returns precisely that entry. -/

theorem foldl_accessStep_find? (slug : Slug) :
    ∀ (events : List Event) (stats : List Stats),
      (events.foldl accessStep stats).find? (fun st => st.link.slug == slug)
        = (stats.find? (fun st => st.link.slug == slug)).map
            (fun st => Stats.mk st.link (st.redirects + numAccesses events slug))
  | [], stats => by
    cases hf : stats.find? (fun st => st.link.slug == slug) <;>
      simp [numAccesses, hf]
  | e :: rest, stats => by
    rw [List.foldl_cons, foldl_accessStep_find? slug rest (accessStep stats e)]
    cases e with
    | linkCreated s u =>
      simp [accessStep, numAccesses, List.countP_cons, isAccess]
    | urlChanged s u =>
      simp [accessStep, numAccesses, List.countP_cons, isAccess]
    | linkAccessed s =>
      by_cases h : s = slug
      · subst h
        have hnum : numAccesses (Event.linkAccessed s :: rest) s
            = numAccesses rest s + 1 := by
          simp [numAccesses, List.countP_cons, isAccess]
        simp only [accessStep]
        rw [find?_updateFirst_self (fun st => st.link.slug == s)
          (fun st => Stats.mk st.link (st.redirects + 1)) (fun x => rfl) stats, hnum]
        cases hf : stats.find? (fun st => st.link.slug == s) with
        | none => simp
        | some st =>
          simp only [Option.map_some', Option.some.injEq, Stats.mk.injEq]
          refine ⟨by trivial, by omega⟩
      · have hnum : numAccesses (Event.linkAccessed s :: rest) slug
            = numAccesses rest slug := by
          simp [numAccesses, List.countP_cons, isAccess, h]
        have hpq : ∀ st : Stats, (st.link.slug == s) = true
            → (st.link.slug == slug) = false := by
          intro st hst
          rw [beq_iff_eq] at hst
          rw [hst]
          exact beq_eq_false_iff_ne.mpr h
        simp only [accessStep]
        rw [find?_updateFirst_other (fun st => st.link.slug == s)
          (fun st => st.link.slug == slug)
          (fun st => Stats.mk st.link (st.redirects + 1)) (fun x => rfl) hpq stats,
          hnum]

/-! Characterization of the `UrlChanged` pass: the first `ShortLink` entry
for a slug ends at the url of the last change event for that slug (or its
original url when there is none). -/

theorem foldl_changeStep_find? (slug : Slug) :
    ∀ (events : List Event) (links : List ShortLink),
      (events.foldl changeStep links).find? (fun l => l.slug == slug)
        = (links.find? (fun l => l.slug == slug)).map
            (fun l => ShortLink.mk l.slug ((lastChange events slug).getD l.url))
  | [], links => by
    cases hf : links.find? (fun l => l.slug == slug) <;> simp [lastChange, hf]
  | e :: rest, links => by
    rw [List.foldl_cons, foldl_changeStep_find? slug rest (changeStep links e)]
    cases e with
    | linkCreated s u =>
      rw [show changeStep links (Event.linkCreated s u) = links from rfl,
        lastChange_cons_created]
    | linkAccessed s =>
      rw [show changeStep links (Event.linkAccessed s) = links from rfl,
        lastChange_cons_accessed]
    | urlChanged s u =>
      by_cases h : s = slug
      · subst h
        simp only [changeStep]
        rw [find?_updateFirst_self (fun l => l.slug == s)
          (fun l => ShortLink.mk l.slug u) (fun x => rfl) links,
          lastChange_cons_changed_self]
        cases hf : links.find? (fun l => l.slug == s) with
        | none => simp
        | some l => simp
      · have hpq : ∀ l : ShortLink, (l.slug == s) = true
            → (l.slug == slug) = false := by
          intro l hl
          rw [beq_iff_eq] at hl
          rw [hl]
          exact beq_eq_false_iff_ne.mpr h
        simp only [changeStep]
        rw [find?_updateFirst_other (fun l => l.slug == s)
          (fun l => l.slug == slug)
          (fun l => ShortLink.mk l.slug u) (fun x => rfl) hpq links,
          lastChange_cons_changed_other s u rest slug h]

/-! The two master lemmas: what `find?` over the replayed vectors returns. -/

theorem linksOf_find? (events : List Event) (slug : Slug) :
    (linksOf events).find? (fun l => l.slug == slug)
      = (firstCreate events slug).map
          fun u => ShortLink.mk slug ((lastChange events slug).getD u) := by
  rw [linksOf, foldl_changeStep_find?, createdLinks_find?]
  cases firstCreate events slug <;> simp

theorem statsOf_find? (events : List Event) (slug : Slug) :
    (statsOf events).find? (fun st => st.link.slug == slug)
      = (firstCreate events slug).map
          fun u => Stats.mk (ShortLink.mk slug u) (numAccesses events slug) := by
  rw [statsOf, foldl_accessStep_find?, find?_map]
  have hp : (fun x : ShortLink => (Stats.mk x 0).link.slug == slug)
      = (fun l : ShortLink => l.slug == slug) := rfl
  rw [hp, createdLinks_find?]
  cases firstCreate events slug <;> simp

/-! Consequences at the level of the public handlers. -/

theorem firstCreate_mem {events : List Event} {slug : Slug} {u : Url}
    (h : firstCreate events slug = some u) : slug ∈ createdSlugs events := by
  by_contra hn
  rw [(firstCreate_eq_none events).mpr hn] at h
  exact Option.noConfusion h

theorem linksOf_any (events : List Event) (slug : Slug) :
    ((linksOf events).any fun l => l.slug == slug) = true
      ↔ slug ∈ createdSlugs events := by
  rw [List.any_eq_true, ← linksOf_map_slug]
  constructor
  · rintro ⟨l, hl, he⟩
    rw [beq_iff_eq] at he
    exact List.mem_map.mpr ⟨l, hl, he⟩
  · intro h
    obtain ⟨l, hl, he⟩ := List.mem_map.mp h
    exact ⟨l, hl, by rw [he]; exact beq_self_eq_true slug⟩

theorem linksOf_any_false (events : List Event) (slug : Slug) :
    ((linksOf events).any fun l => l.slug == slug) = false
      ↔ slug ∉ createdSlugs events := by
  rw [← linksOf_any]
  cases ((linksOf events).any fun l => l.slug == slug) <;> simp

/-- What `get_stats` returns, in terms of the event log. -/
theorem get_stats_eq (svc : UrlShortenerService) (slug : Slug) :
    get_stats svc slug
      = match firstCreate svc.events slug with
        | none => .error .slugNotFound
        | some u =>
            .ok (Stats.mk (ShortLink.mk slug u) (numAccesses svc.events slug)) := by
  simp only [get_stats, replay, statsOf_find?]
  cases h : firstCreate svc.events slug <;> simp

/-- What `handle_redirect` returns and does, in terms of the event log. -/
theorem handle_redirect_eq (svc : UrlShortenerService) (slug : Slug) :
    handle_redirect svc slug
      = match firstCreate svc.events slug with
        | none => (.error .slugNotFound, svc)
        | some u =>
            (.ok (ShortLink.mk slug ((lastChange svc.events slug).getD u)),
              record_event svc (.linkAccessed slug)) := by
  simp only [handle_redirect, replay, linksOf_find?]
  cases h : firstCreate svc.events slug <;> simp

/-- What `handle_change_short_link` returns and does, in terms of the event
log. -/
theorem handle_change_eq (svc : UrlShortenerService) (slug : Slug)
    (new_url : Url) :
    handle_change_short_link svc slug new_url
      = match firstCreate svc.events slug with
        | none => (.error .slugNotFound, svc)
        | some _ =>
            (.ok (ShortLink.mk slug new_url),
              record_event svc (.urlChanged slug new_url)) := by
  simp only [handle_change_short_link, replay, linksOf_find?]
  cases h : firstCreate svc.events slug <;> simp

/-- Case analysis of the state left by `handle_create_short_link`. -/
theorem create_snd (svc : UrlShortenerService) (url : Url)
    (oslug : Option Slug) (gen : Slug) :
    (handle_create_short_link svc url oslug gen).2 = svc ∨
    ((handle_create_short_link svc url oslug gen).2
        = record_event svc (.linkCreated (oslug.getD gen) url)
      ∧ oslug.getD gen ∉ createdSlugs svc.events) := by
  simp only [handle_create_short_link]
  split
  · exact Or.inl rfl
  · split
    · exact Or.inl rfl
    · next h2 =>
      refine Or.inr ⟨rfl, ?_⟩
      rw [← linksOf_any_false]
      simpa [replay] using h2

/-! Append lemmas for the log-derived quantities. -/

theorem createdSlugs_append (l1 l2 : List Event) :
    createdSlugs (l1 ++ l2) = createdSlugs l1 ++ createdSlugs l2 :=
  List.filterMap_append l1 l2 _

theorem numAccesses_append (l1 l2 : List Event) (slug : Slug) :
    numAccesses (l1 ++ l2) slug = numAccesses l1 slug + numAccesses l2 slug :=
  List.countP_append _ _ _

theorem firstCreate_append (slug : Slug) :
    ∀ l1 l2 : List Event,
      firstCreate (l1 ++ l2) slug
        = match firstCreate l1 slug with
          | some u => some u
          | none => firstCreate l2 slug
  | [], l2 => rfl
  | e :: l1, l2 => by
    cases e with
    | linkCreated s u =>
      by_cases h : s = slug
      · subst h
        simp [firstCreate]
      · simp only [List.cons_append, firstCreate, if_neg h]
        exact firstCreate_append slug l1 l2
    | linkAccessed s =>
      simp only [List.cons_append, firstCreate]
      exact firstCreate_append slug l1 l2
    | urlChanged s u =>
      simp only [List.cons_append, firstCreate]
      exact firstCreate_append slug l1 l2

theorem lastChange_append (slug : Slug) :
    ∀ l1 l2 : List Event,
      lastChange (l1 ++ l2) slug
        = match lastChange l2 slug with
          | some u => some u
          | none => lastChange l1 slug
  | [], l2 => by
    cases h : lastChange l2 slug <;> simp [lastChange, h]
  | e :: l1, l2 => by
    rw [List.cons_append,
      show lastChange (e :: (l1 ++ l2)) slug
          = match lastChange (l1 ++ l2) slug with
            | some u => some u
            | none =>
                match e with
                | .urlChanged s u => if s = slug then some u else none
                | _ => none
        from rfl,
      lastChange_append slug l1 l2]
    cases h2 : lastChange l2 slug
    · cases h1 : lastChange l1 slug <;> simp [lastChange, h1]
    · rfl

/-! Well-formed logs: the invariant maintained by the command API. -/

/-- Logs in which every `LinkAccessed`/`UrlChanged` event is preceded by a
`LinkCreated` for its slug, and no slug is created twice. Built snoc-wise,
mirroring how `record_event` appends. -/
inductive WFlog : List Event → Prop where
  | nil : WFlog []
  | created (l : List Event) (slug : Slug) (url : Url) (hw : WFlog l)
      (h : slug ∉ createdSlugs l) : WFlog (l ++ [.linkCreated slug url])
  | accessed (l : List Event) (slug : Slug) (hw : WFlog l)
      (h : slug ∈ createdSlugs l) : WFlog (l ++ [.linkAccessed slug])
  | changed (l : List Event) (slug : Slug) (url : Url) (hw : WFlog l)
      (h : slug ∈ createdSlugs l) : WFlog (l ++ [.urlChanged slug url])

theorem WFlog.nodup {l : List Event} (h : WFlog l) : (createdSlugs l).Nodup := by
  induction h with
  | nil => exact List.nodup_nil
  | created l slug url hw hmem ih =>
    rw [createdSlugs_append]
    have hsingle : createdSlugs [Event.linkCreated slug url] = [slug] := rfl
    rw [hsingle]
    simp only [List.nodup_append, List.nodup_cons, List.nodup_nil,
      List.disjoint_singleton]
    exact ⟨ih, by simp, hmem⟩
  | accessed l slug hw hmem ih =>
    rw [createdSlugs_append]
    simpa [createdSlugs] using ih
  | changed l slug url hw hmem ih =>
    rw [createdSlugs_append]
    simpa [createdSlugs] using ih

theorem WFlog.applyCommand {svc : UrlShortenerService}
    (h : WFlog svc.events) (c : Command) :
    WFlog (applyCommand svc c).events := by
  cases c with
  | create url oslug gen =>
    show WFlog (handle_create_short_link svc url oslug gen).2.events
    rcases create_snd svc url oslug gen with h1 | ⟨h1, h2⟩
    · rw [h1]
      exact h
    · rw [h1]
      exact WFlog.created _ _ _ h h2
  | redirect slug =>
    show WFlog (handle_redirect svc slug).2.events
    rw [handle_redirect_eq]
    cases hfc : firstCreate svc.events slug with
    | none => exact h
    | some u => exact WFlog.accessed _ _ h (firstCreate_mem hfc)
  | change slug new_url =>
    show WFlog (handle_change_short_link svc slug new_url).2.events
    rw [handle_change_eq]
    cases hfc : firstCreate svc.events slug with
    | none => exact h
    | some u => exact WFlog.changed _ _ _ h (firstCreate_mem hfc)

theorem WFlog_foldl :
    ∀ (cmds : List Command) (svc : UrlShortenerService),
      WFlog svc.events → WFlog (cmds.foldl applyCommand svc).events
  | [], svc, h => h
  | c :: rest, svc, h => by
    rw [List.foldl_cons]
    exact WFlog_foldl rest _ (h.applyCommand c)

theorem Reachable.wflog {svc : UrlShortenerService} (h : Reachable svc) :
    WFlog svc.events := by
  obtain ⟨cmds, rfl⟩ := h
  exact WFlog_foldl cmds UrlShortenerService.new WFlog.nil

/-! The projector of the specification: a single fold in append order.
This pair of definitions follows the spec's folding rule (`LinkCreated`:
insert link and zeroed stats if the slug is absent; `LinkAccessed`:
increment the stats entry for the slug if present, else no-op;
`UrlChanged`: overwrite the link's url if present, else no-op), with the
two mappings represented as association lists in insertion order. It is
the comparison point for the refinement claim about `replay`. -/

/-- One step of the spec's fold, applied in append order. -/
def foldStep (acc : List ShortLink × List Stats) (e : Event) :
    List ShortLink × List Stats :=
  match e with
  | .linkCreated slug url =>
      if acc.1.any fun l => l.slug == slug then acc
      else (acc.1 ++ [ShortLink.mk slug url],
        acc.2 ++ [Stats.mk (ShortLink.mk slug url) 0])
  | .linkAccessed slug =>
      (acc.1,
        updateFirst (fun st => st.link.slug == slug)
          (fun st => Stats.mk st.link (st.redirects + 1)) acc.2)
  | .urlChanged slug new_url =>
      (updateFirst (fun l => l.slug == slug)
          (fun l => ShortLink.mk l.slug new_url) acc.1,
        acc.2)

/-- The spec's materialized view: fold the events one at a time, in append
order, from the empty state. -/
def replaySpec (events : List Event) : List ShortLink × List Stats :=
  events.foldl foldStep ([], [])

theorem replaySpec_append (l : List Event) (e : Event) :
    replaySpec (l ++ [e]) = foldStep (replaySpec l) e := by
  rw [replaySpec, replaySpec, List.foldl_append]
  rfl

theorem WFlog.changed_mem {l : List Event} (h : WFlog l) :
    ∀ s u, Event.urlChanged s u ∈ l → s ∈ createdSlugs l := by
  induction h with
  | nil => intro s u hm; simp at hm
  | created l slug url hw hmem ih =>
    intro s u hm
    rw [createdSlugs_append]
    rcases List.mem_append.mp hm with hm | hm
    · exact List.mem_append_left _ (ih s u hm)
    · simp at hm
  | accessed l slug hw hmem ih =>
    intro s u hm
    rw [createdSlugs_append]
    rcases List.mem_append.mp hm with hm | hm
    · exact List.mem_append_left _ (ih s u hm)
    · simp at hm
  | changed l slug url hw hmem ih =>
    intro s u hm
    rw [createdSlugs_append]
    rcases List.mem_append.mp hm with hm | hm
    · exact List.mem_append_left _ (ih s u hm)
    · simp only [List.mem_singleton, Event.urlChanged.injEq] at hm
      exact List.mem_append_left _ (hm.1 ▸ hmem)

theorem WFlog.accessed_mem {l : List Event} (h : WFlog l) :
    ∀ s, Event.linkAccessed s ∈ l → s ∈ createdSlugs l := by
  induction h with
  | nil => intro s hm; simp at hm
  | created l slug url hw hmem ih =>
    intro s hm
    rw [createdSlugs_append]
    rcases List.mem_append.mp hm with hm | hm
    · exact List.mem_append_left _ (ih s hm)
    · simp at hm
  | accessed l slug hw hmem ih =>
    intro s hm
    rw [createdSlugs_append]
    rcases List.mem_append.mp hm with hm | hm
    · exact List.mem_append_left _ (ih s hm)
    · simp only [List.mem_singleton, Event.linkAccessed.injEq] at hm
      exact List.mem_append_left _ (hm ▸ hmem)
  | changed l slug url hw hmem ih =>
    intro s hm
    rw [createdSlugs_append]
    rcases List.mem_append.mp hm with hm | hm
    · exact List.mem_append_left _ (ih s hm)
    · simp at hm

theorem foldl_changeStep_append_keep (x : ShortLink) :
    ∀ (l : List Event) (links : List ShortLink),
      (∀ s u, Event.urlChanged s u ∈ l → ¬s = x.slug) →
      l.foldl changeStep (links ++ [x]) = l.foldl changeStep links ++ [x]
  | [], links, _ => rfl
  | e :: l, links, hno => by
    rw [List.foldl_cons, List.foldl_cons]
    cases e with
    | linkCreated s u =>
      exact foldl_changeStep_append_keep x l links
        (fun s u hm => hno s u (List.mem_cons_of_mem _ hm))
    | linkAccessed s =>
      exact foldl_changeStep_append_keep x l links
        (fun s u hm => hno s u (List.mem_cons_of_mem _ hm))
    | urlChanged s u =>
      have hs : ¬s = x.slug := hno s u (List.mem_cons_self _ _)
      have hx : (x.slug == s) = false :=
        beq_eq_false_iff_ne.mpr fun he => hs he.symm
      show l.foldl changeStep
          (updateFirst (fun lk => lk.slug == s)
            (fun lk => ShortLink.mk lk.slug u) (links ++ [x])) = _
      rw [updateFirst_append_single _ _ x hx]
      exact foldl_changeStep_append_keep x l _
        (fun s u hm => hno s u (List.mem_cons_of_mem _ hm))

theorem foldl_accessStep_append_keep (y : Stats) :
    ∀ (l : List Event) (stats : List Stats),
      (∀ s, Event.linkAccessed s ∈ l → ¬s = y.link.slug) →
      l.foldl accessStep (stats ++ [y]) = l.foldl accessStep stats ++ [y]
  | [], stats, _ => rfl
  | e :: l, stats, hno => by
    rw [List.foldl_cons, List.foldl_cons]
    cases e with
    | linkCreated s u =>
      exact foldl_accessStep_append_keep y l stats
        (fun s hm => hno s (List.mem_cons_of_mem _ hm))
    | urlChanged s u =>
      exact foldl_accessStep_append_keep y l stats
        (fun s hm => hno s (List.mem_cons_of_mem _ hm))
    | linkAccessed s =>
      have hs : ¬s = y.link.slug := hno s (List.mem_cons_self _ _)
      have hy : (y.link.slug == s) = false :=
        beq_eq_false_iff_ne.mpr fun he => hs he.symm
      show l.foldl accessStep
          (updateFirst (fun st => st.link.slug == s)
            (fun st => Stats.mk st.link (st.redirects + 1)) (stats ++ [y])) = _
      rw [updateFirst_append_single _ _ y hy]
      exact foldl_accessStep_append_keep y l _
        (fun s hm => hno s (List.mem_cons_of_mem _ hm))

theorem createdLinks_append (l1 l2 : List Event) :
    createdLinks (l1 ++ l2) = createdLinks l1 ++ createdLinks l2 :=
  List.filterMap_append l1 l2 _

/-- On well-formed logs, the three-pass `replay` of the implementation
agrees with the spec's single fold. -/
theorem WFlog.replay_eq {l : List Event} (h : WFlog l) :
    (linksOf l, statsOf l) = replaySpec l := by
  induction h with
  | nil => rfl
  | created l slug url hw hmem ih =>
    rw [replaySpec_append, ← ih]
    have hany : ((linksOf l).any fun lk => lk.slug == slug) = false :=
      (linksOf_any_false l slug).mpr hmem
    have hstep : foldStep (linksOf l, statsOf l) (Event.linkCreated slug url)
        = (linksOf l ++ [ShortLink.mk slug url],
          statsOf l ++ [Stats.mk (ShortLink.mk slug url) 0]) := by
      simp only [foldStep]
      rw [if_neg (by simp [hany])]
    rw [hstep]
    have hnoChange : ∀ s u, Event.urlChanged s u ∈ l → ¬s = slug := by
      intro s u hm he
      exact hmem (he ▸ hw.changed_mem s u hm)
    have hnoAccess : ∀ s, Event.linkAccessed s ∈ l → ¬s = slug := by
      intro s hm he
      exact hmem (he ▸ hw.accessed_mem s hm)
    have hlinks : linksOf (l ++ [Event.linkCreated slug url])
        = linksOf l ++ [ShortLink.mk slug url] := by
      rw [linksOf, createdLinks_append, List.foldl_append]
      rw [show createdLinks [Event.linkCreated slug url]
          = [ShortLink.mk slug url] from rfl]
      rw [show ∀ init : List ShortLink,
          List.foldl changeStep init [Event.linkCreated slug url] = init
        from fun init => rfl]
      rw [foldl_changeStep_append_keep _ l _ hnoChange]
      rfl
    have hstats : statsOf (l ++ [Event.linkCreated slug url])
        = statsOf l ++ [Stats.mk (ShortLink.mk slug url) 0] := by
      rw [statsOf, createdLinks_append, List.map_append, List.foldl_append]
      rw [show (createdLinks [Event.linkCreated slug url]).map
            (fun lk => Stats.mk lk 0)
          = [Stats.mk (ShortLink.mk slug url) 0] from rfl]
      rw [show ∀ init : List Stats,
          List.foldl accessStep init [Event.linkCreated slug url] = init
        from fun init => rfl]
      rw [foldl_accessStep_append_keep _ l _ hnoAccess]
      rfl
    rw [hlinks, hstats]
  | accessed l slug hw hmem ih =>
    rw [replaySpec_append, ← ih]
    have hlinks : linksOf (l ++ [Event.linkAccessed slug]) = linksOf l := by
      rw [linksOf, createdLinks_append, List.foldl_append]
      rw [show createdLinks [Event.linkAccessed slug] = [] from rfl,
        List.append_nil]
      rfl
    have hstats : statsOf (l ++ [Event.linkAccessed slug])
        = updateFirst (fun st => st.link.slug == slug)
            (fun st => Stats.mk st.link (st.redirects + 1)) (statsOf l) := by
      rw [statsOf, createdLinks_append, List.map_append, List.foldl_append]
      rw [show createdLinks [Event.linkAccessed slug] = [] from rfl,
        List.map_nil, List.append_nil]
      rfl
    rw [hlinks, hstats]
    rfl
  | changed l slug url hw hmem ih =>
    rw [replaySpec_append, ← ih]
    have hlinks : linksOf (l ++ [Event.urlChanged slug url])
        = updateFirst (fun lk => lk.slug == slug)
            (fun lk => ShortLink.mk lk.slug url) (linksOf l) := by
      rw [linksOf, createdLinks_append, List.foldl_append]
      rw [show createdLinks [Event.urlChanged slug url] = [] from rfl,
        List.append_nil]
      rfl
    have hstats : statsOf (l ++ [Event.urlChanged slug url]) = statsOf l := by
      rw [statsOf, createdLinks_append, List.map_append, List.foldl_append]
      rw [show createdLinks [Event.urlChanged slug url] = [] from rfl,
        List.map_nil, List.append_nil]
      rfl
    rw [hlinks, hstats]
    rfl

/-! Helper lemmas used by several claims. -/

theorem not_isEmpty_of_http (url : Url)
    (hurl : httpScheme.isPrefixOf url = true) : url.isEmpty = false := by
  cases url with
  | nil => simp [httpScheme, List.isPrefixOf] at hurl
  | cons a as => rfl

theorem record_event_events (svc : UrlShortenerService) (e : Event) :
    (record_event svc e).events = svc.events ++ [e] := rfl

/-- Every command either leaves the log unchanged or appends one event. -/
theorem applyCommand_events (svc : UrlShortenerService) (c : Command) :
    (applyCommand svc c).events = svc.events ∨
    ∃ e, (applyCommand svc c).events = svc.events ++ [e] := by
  cases c with
  | create url oslug gen =>
    show (handle_create_short_link svc url oslug gen).2.events = svc.events ∨
      ∃ e, (handle_create_short_link svc url oslug gen).2.events = svc.events ++ [e]
    rcases create_snd svc url oslug gen with h1 | ⟨h1, _⟩
    · exact Or.inl (by rw [h1])
    · exact Or.inr ⟨Event.linkCreated (oslug.getD gen) url, by rw [h1]; rfl⟩
  | redirect slug =>
    show (handle_redirect svc slug).2.events = svc.events ∨
      ∃ e, (handle_redirect svc slug).2.events = svc.events ++ [e]
    rw [handle_redirect_eq]
    cases hfc : firstCreate svc.events slug with
    | none => exact Or.inl rfl
    | some u => exact Or.inr ⟨Event.linkAccessed slug, rfl⟩
  | change slug new_url =>
    show (handle_change_short_link svc slug new_url).2.events = svc.events ∨
      ∃ e, (handle_change_short_link svc slug new_url).2.events = svc.events ++ [e]
    rw [handle_change_eq]
    cases hfc : firstCreate svc.events slug with
    | none => exact Or.inl rfl
    | some u => exact Or.inr ⟨Event.urlChanged slug new_url, rfl⟩

theorem numAccesses_applyCommand_frame (svc : UrlShortenerService) (slug : Slug) :
    ∀ c : Command, c ≠ Command.redirect slug →
      numAccesses (applyCommand svc c).events slug = numAccesses svc.events slug := by
  intro c hc
  cases c with
  | create url oslug gen =>
    rcases create_snd svc url oslug gen with h1 | ⟨h1, _⟩ <;>
      rw [show (applyCommand svc (Command.create url oslug gen))
        = (handle_create_short_link svc url oslug gen).2 from rfl, h1]
    rw [record_event_events, numAccesses_append]
    simp [numAccesses, List.countP_cons, isAccess]
  | redirect s =>
    have hs : ¬s = slug := fun he => hc (by rw [he])
    show numAccesses (handle_redirect svc s).2.events slug = _
    rw [handle_redirect_eq]
    cases hfc : firstCreate svc.events s with
    | none => rfl
    | some u =>
      show numAccesses (record_event svc (Event.linkAccessed s)).events slug = _
      rw [record_event_events, numAccesses_append]
      simp [numAccesses, List.countP_cons, isAccess, hs]
  | change s new_url =>
    show numAccesses (handle_change_short_link svc s new_url).2.events slug = _
    rw [handle_change_eq]
    cases hfc : firstCreate svc.events s with
    | none => rfl
    | some u =>
      show numAccesses (record_event svc (Event.urlChanged s new_url)).events slug = _
      rw [record_event_events, numAccesses_append]
      simp [numAccesses, List.countP_cons, isAccess]

theorem numAccesses_applyCommand_mono (svc : UrlShortenerService) (slug : Slug)
    (c : Command) :
    numAccesses svc.events slug ≤ numAccesses (applyCommand svc c).events slug := by
  rcases applyCommand_events svc c with h1 | ⟨e, h1⟩
  · rw [h1]
  · rw [h1, numAccesses_append]
    exact Nat.le_add_right _ _

theorem numAccesses_foldl_mono (slug : Slug) :
    ∀ (cmds : List Command) (svc : UrlShortenerService),
      numAccesses svc.events slug
        ≤ numAccesses (cmds.foldl applyCommand svc).events slug
  | [], svc => le_refl _
  | c :: rest, svc => by
    rw [List.foldl_cons]
    exact le_trans (numAccesses_applyCommand_mono svc slug c)
      (numAccesses_foldl_mono slug rest _)

/-! Concrete fixtures used by counterexamples and witnesses. -/

def urlA : Url := ['h', 't', 't', 'p', 'a']

def urlB : Url := ['h', 't', 't', 'p', 'b']

def urlBad : Url := ['f', 't', 'p']

def slugS : Slug := ['s']

def slugG : Slug := ['g']

/-- A service holding one link, created with explicit slug `slugS`. -/
def svcCreated : UrlShortenerService :=
  execCommands [Command.create urlA (some slugS) slugG]

/-- `svcCreated` after a successful `handle_change_short_link` to `urlB`. -/
def svcChanged : UrlShortenerService :=
  execCommands [Command.create urlA (some slugS) slugG, Command.change slugS urlB]

/-- `svcCreated` after one successful redirect. -/
def svcRedirected : UrlShortenerService :=
  execCommands [Command.create urlA (some slugS) slugG, Command.redirect slugS]

/-- A service holding one link created with `slug = none` and generated
candidate `slugS`. -/
def svcNone : UrlShortenerService :=
  execCommands [Command.create urlA none slugS]

/-! The claims. -/

/-- Claim C1: the claim states that `get_stats` returns a `Stats` whose
`link` reflects the latest successful `change_short_link` (not merely the
creation url). The code violates this: the third pass of `replay` updates
the `links` vector but not the `link` stored inside each `Stats`, so after
a successful change `get_stats` still reports the creation url, while
`handle_redirect` (reading `links`) reports the changed url for the same
slug. This theorem evaluates the code at the failing input. -/
theorem claim_C1 :
    (handle_change_short_link svcCreated slugS urlB).1
      = .ok (ShortLink.mk slugS urlB) ∧
    get_stats svcChanged slugS = .ok (Stats.mk (ShortLink.mk slugS urlA) 0) ∧
    (handle_redirect svcChanged slugS).1 = .ok (ShortLink.mk slugS urlB) :=
  ⟨rfl, rfl, rfl⟩

/-- Claim C2 counterexample: after a first `slug = None` create that
activated slug `slugS`, a second `slug = None` create whose generated
candidate is the colliding `slugS` does not terminate successfully with a
distinct slug — the source draws exactly one candidate and returns
`SlugAlreadyInUse`, with no retry. -/
theorem claim_C2_counterexample :
    handle_create_short_link svcNone urlA none slugS
      = (.error .slugAlreadyInUse, svcNone) := rfl

/-- Claim C2 (amended): when `handle_create_short_link` is called with
`slug = None` and the single randomly generated candidate collides with an
already-active slug, the service returns `Err(SlugAlreadyInUse)` and
appends nothing; no further candidates are requested. (Valid url assumed,
otherwise the earlier `InvalidUrl` check fires.) -/
theorem claim_C2 (svc : UrlShortenerService) (url : Url) (gen : Slug)
    (hgen : gen ∈ createdSlugs svc.events)
    (hurl : httpScheme.isPrefixOf url = true) :
    handle_create_short_link svc url none gen
      = (.error .slugAlreadyInUse, svc) := by
  have hne := not_isEmpty_of_http url hurl
  simp only [handle_create_short_link, replay, Option.getD_none]
  rw [if_neg (show ¬((!httpScheme.isPrefixOf url || url.isEmpty) = true) from by
    rw [hurl, hne]; simp)]
  rw [if_pos ((linksOf_any svc.events gen).mpr hgen)]

theorem claim_C2_witness :
    handle_create_short_link svcCreated urlA none slugS
      = (.error .slugAlreadyInUse, svcCreated) :=
  claim_C2 svcCreated urlA slugS (by decide) (by decide)

/-- Claim C3: in every reachable state the log has at most one
`LinkCreated` per slug (the created slugs are nodup), and
`handle_create_short_link` with an explicit already-active slug leaves the
state unchanged, returning `SlugAlreadyInUse` whenever the url passes the
validity check (an invalid url fires the earlier `InvalidUrl` check, still
appending nothing). -/
theorem claim_C3 (svc : UrlShortenerService) (h : Reachable svc) :
    (createdSlugs svc.events).Nodup ∧
    ∀ url slug gen, slug ∈ createdSlugs svc.events →
      (handle_create_short_link svc url (some slug) gen).2 = svc ∧
      (httpScheme.isPrefixOf url = true →
        handle_create_short_link svc url (some slug) gen
          = (.error .slugAlreadyInUse, svc)) := by
  refine ⟨h.wflog.nodup, ?_⟩
  intro url slug gen hmem
  constructor
  · rcases create_snd svc url (some slug) gen with h1 | ⟨h1, h2⟩
    · exact h1
    · exact absurd hmem h2
  · intro hurl
    have hne := not_isEmpty_of_http url hurl
    simp only [handle_create_short_link, replay, Option.getD_some]
    rw [if_neg (show ¬((!httpScheme.isPrefixOf url || url.isEmpty) = true) from by
      rw [hurl, hne]; simp)]
    rw [if_pos ((linksOf_any svc.events slug).mpr hmem)]

theorem claim_C3_witness :
    (createdSlugs svcCreated.events).Nodup ∧
    handle_create_short_link svcCreated urlA (some slugS) slugG
      = (.error .slugAlreadyInUse, svcCreated) :=
  ⟨(claim_C3 svcCreated ⟨[Command.create urlA (some slugS) slugG], rfl⟩).1,
    ((claim_C3 svcCreated ⟨[Command.create urlA (some slugS) slugG], rfl⟩).2
      urlA slugS slugG (by decide)).2 (by decide)⟩

/-- Claim C4: every successful command appends exactly one event to the
log; every command that returns an error leaves the service (and hence the
log) unchanged. -/
theorem claim_C4 (svc : UrlShortenerService) (c : Command) :
    ((runCommand svc c).1.isOk = true →
      ∃ e, (runCommand svc c).2.events = svc.events ++ [e]) ∧
    ((runCommand svc c).1.isOk = false → (runCommand svc c).2 = svc) := by
  cases c with
  | create url oslug gen =>
    show ((handle_create_short_link svc url oslug gen).1.isOk = true →
        ∃ e, (handle_create_short_link svc url oslug gen).2.events
          = svc.events ++ [e]) ∧
      ((handle_create_short_link svc url oslug gen).1.isOk = false →
        (handle_create_short_link svc url oslug gen).2 = svc)
    simp only [handle_create_short_link]
    split
    · refine ⟨fun hok => ?_, fun _ => rfl⟩
      simp [Except.isOk, Except.toBool] at hok
    · split
      · refine ⟨fun hok => ?_, fun _ => rfl⟩
        simp [Except.isOk, Except.toBool] at hok
      · refine ⟨fun _ => ⟨_, rfl⟩, fun hok => ?_⟩
        simp [Except.isOk, Except.toBool] at hok
  | redirect slug =>
    show ((handle_redirect svc slug).1.isOk = true →
        ∃ e, (handle_redirect svc slug).2.events = svc.events ++ [e]) ∧
      ((handle_redirect svc slug).1.isOk = false →
        (handle_redirect svc slug).2 = svc)
    rw [handle_redirect_eq]
    cases hfc : firstCreate svc.events slug with
    | none =>
      refine ⟨fun hok => ?_, fun _ => rfl⟩
      simp [Except.isOk, Except.toBool] at hok
    | some u =>
      refine ⟨fun _ => ⟨Event.linkAccessed slug, rfl⟩, fun hok => ?_⟩
      simp [Except.isOk, Except.toBool] at hok
  | change slug new_url =>
    show ((handle_change_short_link svc slug new_url).1.isOk = true →
        ∃ e, (handle_change_short_link svc slug new_url).2.events
          = svc.events ++ [e]) ∧
      ((handle_change_short_link svc slug new_url).1.isOk = false →
        (handle_change_short_link svc slug new_url).2 = svc)
    rw [handle_change_eq]
    cases hfc : firstCreate svc.events slug with
    | none =>
      refine ⟨fun hok => ?_, fun _ => rfl⟩
      simp [Except.isOk, Except.toBool] at hok
    | some u =>
      refine ⟨fun _ => ⟨Event.urlChanged slug new_url, rfl⟩, fun hok => ?_⟩
      simp [Except.isOk, Except.toBool] at hok

theorem claim_C4_witness :
    (∃ e, (runCommand UrlShortenerService.new
        (Command.create urlA (some slugS) slugG)).2.events
      = UrlShortenerService.new.events ++ [e]) ∧
    (runCommand UrlShortenerService.new (Command.redirect slugS)).2
      = UrlShortenerService.new :=
  ⟨(claim_C4 UrlShortenerService.new
      (Command.create urlA (some slugS) slugG)).1 rfl,
    (claim_C4 UrlShortenerService.new (Command.redirect slugS)).2 rfl⟩

/-- Claim C5: `handle_redirect`, `handle_change_short_link` and `get_stats`
return `Err(SlugNotFound)` exactly when the log holds no `LinkCreated`
event for the slug; in particular all three fail on a never-created slug. -/
theorem claim_C5 (svc : UrlShortenerService) (slug : Slug) (new_url : Url) :
    ((handle_redirect svc slug).1 = .error .slugNotFound
      ↔ ∀ url, Event.linkCreated slug url ∉ svc.events) ∧
    ((handle_change_short_link svc slug new_url).1 = .error .slugNotFound
      ↔ ∀ url, Event.linkCreated slug url ∉ svc.events) ∧
    (get_stats svc slug = .error .slugNotFound
      ↔ ∀ url, Event.linkCreated slug url ∉ svc.events) := by
  have hiff : firstCreate svc.events slug = none
      ↔ ∀ url, Event.linkCreated slug url ∉ svc.events := by
    rw [firstCreate_eq_none]
    constructor
    · intro hn url hmem
      exact hn (mem_createdSlugs.mpr ⟨url, hmem⟩)
    · intro hall hmem
      obtain ⟨url, hu⟩ := mem_createdSlugs.mp hmem
      exact hall url hu
  refine ⟨?_, ?_, ?_⟩
  · rw [handle_redirect_eq]
    cases hfc : firstCreate svc.events slug with
    | none => exact ⟨fun _ => hiff.mp hfc, fun _ => rfl⟩
    | some u =>
      constructor
      · intro he
        exact absurd he (by simp)
      · intro hall
        have hn := hiff.mpr hall
        rw [hfc] at hn
        exact Option.noConfusion hn
  · rw [handle_change_eq]
    cases hfc : firstCreate svc.events slug with
    | none => exact ⟨fun _ => hiff.mp hfc, fun _ => rfl⟩
    | some u =>
      constructor
      · intro he
        exact absurd he (by simp)
      · intro hall
        have hn := hiff.mpr hall
        rw [hfc] at hn
        exact Option.noConfusion hn
  · rw [get_stats_eq]
    cases hfc : firstCreate svc.events slug with
    | none => exact ⟨fun _ => hiff.mp hfc, fun _ => rfl⟩
    | some u =>
      constructor
      · intro he
        exact absurd he (by simp)
      · intro hall
        have hn := hiff.mpr hall
        rw [hfc] at hn
        exact Option.noConfusion hn

/-- Claim C6: `handle_create_short_link` returns `Err(InvalidUrl)` exactly
when the url fails the validity predicate (non-empty and starting with
`"http"`), for every url and slug argument; in that case the state is
unchanged. -/
theorem claim_C6 (svc : UrlShortenerService) (url : Url) (slug : Option Slug)
    (gen : Slug) :
    ((handle_create_short_link svc url slug gen).1 = .error .invalidUrl
      ↔ ¬(url ≠ [] ∧ httpScheme.isPrefixOf url = true)) ∧
    ((handle_create_short_link svc url slug gen).1 = .error .invalidUrl
      → (handle_create_short_link svc url slug gen).2 = svc) := by
  have hcond : (!httpScheme.isPrefixOf url || url.isEmpty) = true
      ↔ ¬(url ≠ [] ∧ httpScheme.isPrefixOf url = true) := by
    cases hurl : httpScheme.isPrefixOf url
    · simp [hurl]
    · cases url with
      | nil => simp [httpScheme, List.isPrefixOf] at hurl
      | cons a as => simp [hurl]
  constructor
  · show (handle_create_short_link svc url slug gen).1 = .error .invalidUrl
      ↔ ¬(url ≠ [] ∧ httpScheme.isPrefixOf url = true)
    simp only [handle_create_short_link]
    split
    · next hc => exact ⟨fun _ => hcond.mp hc, fun _ => rfl⟩
    · next hc =>
      have hprop : url ≠ [] ∧ httpScheme.isPrefixOf url = true := by
        by_contra hcontra
        exact hc (hcond.mpr hcontra)
      split
      · constructor
        · intro he
          exact absurd he (by simp)
        · intro hr
          exact absurd hprop hr
      · constructor
        · intro he
          exact absurd he (by simp)
        · intro hr
          exact absurd hprop hr
  · show (handle_create_short_link svc url slug gen).1 = .error .invalidUrl
      → (handle_create_short_link svc url slug gen).2 = svc
    simp only [handle_create_short_link]
    split
    · exact fun _ => rfl
    · split
      · exact fun _ => rfl
      · intro he
        exact absurd he (by simp)

theorem claim_C6_witness :
    (handle_create_short_link UrlShortenerService.new urlBad none slugG).2
      = UrlShortenerService.new :=
  (claim_C6 UrlShortenerService.new urlBad none slugG).2 rfl

/-- Claim C7: in every reachable state, for an active slug `get_stats`
reports exactly the number of `LinkAccessed` events for that slug; a
successful `handle_redirect` raises that number by exactly one; no command
other than a redirect of that same slug changes it; and it is
non-decreasing under any further command sequence. -/
theorem claim_C7 (svc : UrlShortenerService) (h : Reachable svc) (slug : Slug)
    (hact : slug ∈ createdSlugs svc.events) :
    (∃ st, get_stats svc slug = .ok st
      ∧ st.redirects = numAccesses svc.events slug) ∧
    ((handle_redirect svc slug).1.isOk = true ∧
      numAccesses (handle_redirect svc slug).2.events slug
        = numAccesses svc.events slug + 1) ∧
    (∀ c : Command, c ≠ Command.redirect slug →
      numAccesses (applyCommand svc c).events slug
        = numAccesses svc.events slug) ∧
    (∀ cmds : List Command,
      numAccesses svc.events slug
        ≤ numAccesses (cmds.foldl applyCommand svc).events slug) := by
  obtain ⟨u, hfc⟩ := firstCreate_isSome_of_mem hact
  refine ⟨?_, ⟨?_, ?_⟩, ?_, ?_⟩
  · rw [get_stats_eq, hfc]
    exact ⟨_, rfl, rfl⟩
  · rw [handle_redirect_eq, hfc]
    rfl
  · rw [handle_redirect_eq, hfc]
    show numAccesses (record_event svc (Event.linkAccessed slug)).events slug = _
    rw [record_event_events, numAccesses_append]
    simp [numAccesses, List.countP_cons, isAccess]
  · exact numAccesses_applyCommand_frame svc slug
  · exact fun cmds => numAccesses_foldl_mono slug cmds svc

theorem claim_C7_witness :
    (∃ st, get_stats svcCreated slugS = .ok st
      ∧ st.redirects = numAccesses svcCreated.events slugS) ∧
    numAccesses (handle_redirect svcCreated slugS).2.events slugS
      = numAccesses svcCreated.events slugS + 1 ∧
    numAccesses (applyCommand svcCreated (Command.change slugS urlB)).events slugS
      = numAccesses svcCreated.events slugS ∧
    numAccesses svcCreated.events slugS
      ≤ numAccesses ([Command.redirect slugS].foldl applyCommand svcCreated).events slugS := by
  have H := claim_C7 svcCreated
    ⟨[Command.create urlA (some slugS) slugG], rfl⟩ slugS (by decide)
  exact ⟨H.1, H.2.1.2,
    H.2.2.1 (Command.change slugS urlB) (by decide),
    H.2.2.2 [Command.redirect slugS]⟩

/-- Claim C8: a successful `handle_change_short_link` never changes the
redirect count observable through `get_stats`, for any slug (including the
changed one). -/
theorem claim_C8 (svc : UrlShortenerService) (slug : Slug) (new_url : Url)
    (link : ShortLink)
    (h : (handle_change_short_link svc slug new_url).1 = .ok link) :
    ∀ s2 : Slug,
      redirectsSeen (handle_change_short_link svc slug new_url).2 s2
        = redirectsSeen svc s2 := by
  intro s2
  rw [handle_change_eq] at h ⊢
  cases hfc : firstCreate svc.events slug with
  | none =>
    rw [hfc] at h
  | some u =>
    show redirectsSeen (record_event svc (Event.urlChanged slug new_url)) s2
      = redirectsSeen svc s2
    have hgs : get_stats (record_event svc (Event.urlChanged slug new_url)) s2
        = get_stats svc s2 := by
      rw [get_stats_eq, get_stats_eq, record_event_events,
        firstCreate_append, numAccesses_append]
      cases hfc2 : firstCreate svc.events s2 with
      | none => simp [firstCreate]
      | some u2 => simp [numAccesses, isAccess, List.countP_cons]
    simp only [redirectsSeen, hgs]

theorem claim_C8_witness :
    redirectsSeen (handle_change_short_link svcRedirected slugS urlB).2 slugS
      = redirectsSeen svcRedirected slugS :=
  claim_C8 svcRedirected slugS urlB (ShortLink.mk slugS urlB) rfl slugS

/-- Claim C9: on every state reachable through the command API, the
three-pass `replay` of the implementation produces exactly the
materialized view of the spec's single fold in append order. -/
theorem claim_C9 (svc : UrlShortenerService) (h : Reachable svc) :
    replay svc = replaySpec svc.events :=
  h.wflog.replay_eq

theorem claim_C9_witness :
    replay svcChanged = replaySpec svcChanged.events :=
  claim_C9 svcChanged
    ⟨[Command.create urlA (some slugS) slugG, Command.change slugS urlB], rfl⟩

/-- Claim C10: a successful `handle_redirect` returns the `ShortLink` as
it currently stands: its url is the `new_url` of the last `UrlChanged`
event for the slug (each such event stems from a successful
`handle_change_short_link` in a reachable log), or the creation url when
no change occurred. -/
theorem claim_C10 (svc : UrlShortenerService) (h : Reachable svc)
    (slug : Slug) (link : ShortLink)
    (hok : (handle_redirect svc slug).1 = .ok link) :
    ∃ createUrl, firstCreate svc.events slug = some createUrl ∧
      link = ShortLink.mk slug ((lastChange svc.events slug).getD createUrl) := by
  rw [handle_redirect_eq] at hok
  cases hfc : firstCreate svc.events slug with
  | none =>
    rw [hfc] at hok
    exact absurd hok (by simp)
  | some u =>
    rw [hfc] at hok
    refine ⟨u, rfl, ?_⟩
    have := hok
    simp only [Except.ok.injEq] at this
    exact this.symm

theorem claim_C10_witness :
    ∃ createUrl, firstCreate svcChanged.events slugS = some createUrl ∧
      ShortLink.mk slugS urlB
        = ShortLink.mk slugS ((lastChange svcChanged.events slugS).getD createUrl) :=
  claim_C10 svcChanged
    ⟨[Command.create urlA (some slugS) slugG, Command.change slugS urlB], rfl⟩
    slugS (ShortLink.mk slugS urlB) rfl

end UrlShortener
